import Mathlib

/-!
Verification of the graph-construction pipeline of `scripts/create_networks.py`
(Myanmar Financials corporate-registry networks).

The script ingests per-company JSON documents, flattens them to one row per
officer-at-company, builds the bipartite membership indices
`officers_by_company` / `companies_by_officer` (pandas `groupby` + `set`),
projects them to weighted officer-officer and company-company edge lists
(a `Counter` per node, self-loop removed, endpoints sorted, `list(set(...))`
deduplication), restricts each graph to its largest connected component
(`max(nx.connected_components(G), key=len)` and `G.subgraph`), and computes
per-node "most popular" affiliation attributes with defaulted dict lookups.

This file embeds those constructions shallowly:

* rows of the officer table are pairs `(officer key, corp id)` for the
  projection stage, and full `OfficerRow` records for the loading / lookup /
  data-quality stages;
* Python `dict` construction (`dict(zip(ks, vs))`, insertion with overwrite,
  `d.get(k, default)`) is modelled by `pyInsert` / `pyDict` / `pyFind` /
  `pyGetD` on association lists;
* pandas `groupby(...).agg(set)` is modelled with `List.filter` + `toFinset`;
* `collections.Counter` over the concatenated membership sets is modelled by
  a `Finset.sum` of indicators;
* `networkx` connected components are modelled by a fuelled breadth-first
  closure (`compStep` / `compIter` / `componentOf` / `componentsOf`), and
  `max(..., key=len)` (which keeps the first maximum and raises `ValueError`
  on an empty sequence) by `pickLargest : List _ → Option _`;
* the unspecified iteration order of Python sets (hash, randomized across
  processes) is made explicit as a list parameter wherever the source
  iterates over a set.
-/

set_option maxHeartbeats 1000000
set_option linter.unusedSectionVars false

namespace Myanmar

/-! ### Python dict model -/

section PyDict

variable {κ ν : Type} [DecidableEq κ]

/-- Python dict insertion `d[k] = v`: if the key is present its value is
overwritten in place (insertion order kept), otherwise the pair is appended. -/
def pyInsert (d : List (κ × ν)) (k : κ) (v : ν) : List (κ × ν) :=
  if d.any (fun p => decide (p.1 = k)) then
    d.map (fun p => if p.1 = k then (k, v) else p)
  else d ++ [(k, v)]

/-- Python `dict(pairs)` (hence `dict(zip(ks, vs))`): insert the pairs in
order; a later pair with the same key overwrites the earlier value. -/
def pyDict (ps : List (κ × ν)) : List (κ × ν) :=
  ps.foldl (fun d p => pyInsert d p.1 p.2) []

/-- Dict lookup returning an optional value (`k in d` + `d[k]`). -/
def pyFind (d : List (κ × ν)) (k : κ) : Option ν :=
  (d.find? (fun p => decide (p.1 = k))).map Prod.snd

/-- Python `d.get(k, v₀)`. -/
def pyGetD (d : List (κ × ν)) (k : κ) (v₀ : ν) : ν :=
  (pyFind d k).getD v₀

/-- The value attached to the last occurrence of key `k` in a pair list;
the reference semantics of `dict(pairs)` lookup. -/
def lastValue (ps : List (κ × ν)) (k : κ) : Option ν :=
  ((ps.filter (fun p => decide (p.1 = k))).getLast?).map Prod.snd

end PyDict

/-! ### Record loader (lines 127-169 of `create_networks.py`) -/

/-- The `Corp` sub-object of one input JSON document; every field is optional
because the source reads each with `company.get('Corp', {}).get(key)`. -/
structure CorpObj where
  corpId : Option String
  companyName : Option String
  registrationNumber : Option String
  holdingCompanyName : Option String
  holdingCompanyRegNumber : Option String
  registrationDate : Option String
  altName : Option String
deriving DecidableEq

/-- One entry of the `Officers` array of an input JSON document; every field
is optional because the source reads each with `officer.get(key)`. -/
structure OfficerObj where
  corpOfficerId : Option String
  fullNameNormalized : Option String
  fullName : Option String
  nationality : Option String
  idNumber : Option String
deriving DecidableEq

/-- One parsed input JSON document.  `corp = none` models a document without
the top-level `Corp` key, `officers = none` one without `Officers`; the
source defaults them with `company.get('Corp', dict())` and
`company.get('Officers', list())`. -/
structure CompanyDoc where
  corp : Option CorpObj
  officers : Option (List OfficerObj)
deriving DecidableEq

/-- One flattened row of the officer table `df`: the officer's fields merged
with the enclosing company's fields (`{**officer_dict, **corp_dict}`). -/
structure OfficerRow where
  corpOfficerId : Option String
  fullNameNormalized : Option String
  fullName : Option String
  nationality : Option String
  idNumber : Option String
  corpId : Option String
  companyName : Option String
  registrationNumber : Option String
  holdingCompanyName : Option String
  holdingCompanyRegNumber : Option String
  registrationDate : Option String
  altName : Option String
deriving DecidableEq

/-- The all-`None` company field set produced by `{}.get(key)` when the
`Corp` key is absent. -/
def emptyCorp : CorpObj :=
  ⟨none, none, none, none, none, none, none⟩

/-- The company fields used for every officer of a document:
`company.get('Corp', dict()).get(key)` for each of the seven `CORP_KEYS`. -/
def corpFieldsOf (d : CompanyDoc) : CorpObj :=
  d.corp.getD emptyCorp

/-- Merge one officer entry with its document's company fields into a row
(the key sets are disjoint, so the merge order does not matter). -/
def rowOf (c : CorpObj) (o : OfficerObj) : OfficerRow :=
  { corpOfficerId := o.corpOfficerId
    fullNameNormalized := o.fullNameNormalized
    fullName := o.fullName
    nationality := o.nationality
    idNumber := o.idNumber
    corpId := c.corpId
    companyName := c.companyName
    registrationNumber := c.registrationNumber
    holdingCompanyName := c.holdingCompanyName
    holdingCompanyRegNumber := c.holdingCompanyRegNumber
    registrationDate := c.registrationDate
    altName := c.altName }

/-- The record-flattening loop (lines 144-160): one row per entry of
`company.get('Officers', list())`, merged with the company fields.  The loop
is total: a document with missing top-level keys produces rows (or no rows)
without any error. -/
def flattenDoc (d : CompanyDoc) : List OfficerRow :=
  (d.officers.getD []).map (rowOf (corpFieldsOf d))

/-- Flattening a whole directory of documents (the outer loop of lines
144-160). -/
def flattenDocs (ds : List CompanyDoc) : List OfficerRow :=
  ds.flatMap flattenDoc

/-! ### Membership index (lines 178-184)

For the projection stage a row of `df` is abstracted to the pair
`(OfficerUnique, CorpId)`; `α` is the officer-key type and `β` the corp-id
type.  `groupby(k).agg({v : set})` is: for each key value actually occurring,
the set of `v`-values of the rows with that key. -/

section Projection

variable {α β : Type} [LinearOrder α] [LinearOrder β] [DecidableEq α] [DecidableEq β]

/-- `companies_by_officer[o]`: the set of corp ids of the rows whose officer
key is `o` (`df.groupby('OfficerUnique').agg({'CorpId' : set})`). -/
def companies_by_officer (rows : List (α × β)) (o : α) : Finset β :=
  ((rows.filter (fun r => decide (r.1 = o))).map Prod.snd).toFinset

/-- `officers_by_company[c]`: the set of officer keys of the rows whose corp
id is `c` (`df.groupby('CorpId').agg({'OfficerUnique' : set})`). -/
def officers_by_company (rows : List (α × β)) (c : β) : Finset α :=
  ((rows.filter (fun r => decide (r.2 = c))).map Prod.fst).toFinset

/-- The key set of `companies_by_officer` (the officers that occur in `df`). -/
def officerKeys (rows : List (α × β)) : Finset α :=
  (rows.map Prod.fst).toFinset

/-- The key set of `officers_by_company` (the corp ids that occur in `df`). -/
def corpKeys (rows : List (α × β)) : Finset β :=
  (rows.map Prod.snd).toFinset

/-- The officer-projection `Counter` count (lines 200-201): in the multiset
`[officer for corpid in companies_by_officer[a] for officer in
officers_by_company[corpid]]`, officer `b` occurs once per company of `a`
that `b` also belongs to. -/
def officerCounter (rows : List (α × β)) (a b : α) : ℕ :=
  ∑ c ∈ companies_by_officer rows a, if b ∈ officers_by_company rows c then 1 else 0

/-- The corp-projection `Counter` count (lines 243-244), symmetrically. -/
def corpCounter (rows : List (α × β)) (c d : β) : ℕ :=
  ∑ o ∈ officers_by_company rows c, if d ∈ companies_by_officer rows o then 1 else 0

/-- The deduplicated officer edge set (lines 194-216): for every officer `a`
and every other officer `b` with a positive shared count, the triple
`(*sorted([a, b]), count)`; `list(set(officer_edges))` makes the result a
set of triples. -/
def officer_edges (rows : List (α × β)) : Finset (α × α × ℕ) :=
  (officerKeys rows).biUnion (fun a =>
    (((officerKeys rows).erase a).filter (fun b => 0 < officerCounter rows a b)).image
      (fun b => (min a b, max a b, officerCounter rows a b)))

/-- The deduplicated corp edge set (lines 236-259), symmetrically. -/
def corp_edges (rows : List (α × β)) : Finset (β × β × ℕ) :=
  (corpKeys rows).biUnion (fun c =>
    (((corpKeys rows).erase c).filter (fun d => 0 < corpCounter rows c d)).image
      (fun d => (min c d, max c d, corpCounter rows c d)))

/-- The row list with the officer and corp columns swapped; the corp
projection is the officer projection of the swapped table. -/
def swapRows (rows : List (α × β)) : List (β × α) :=
  rows.map (fun r => (r.2, r.1))

end Projection

/-! ### Component filter (lines 276-289)

`nx.Graph.add_edges_from` inserts the endpoints of each edge in order;
`nx.connected_components` yields the components as node sets, one per
unvisited node in insertion order; `max(..., key=len)` keeps the first
maximum and raises `ValueError` on an empty sequence;
`G.subgraph(nodes)` is the induced subgraph.  The breadth-first closure is
fuelled so that it is structurally recursive and kernel-evaluable. -/

section Components

variable {κ : Type} [DecidableEq κ]

/-- Deduplication keeping the first occurrence (dict/set insertion order). -/
def dedupKeepFirst (l : List κ) : List κ :=
  l.foldl (fun acc x => if x ∈ acc then acc else acc ++ [x]) []

/-- The node list of the graph built from an edge list: the endpoints in
insertion order, first occurrence kept. -/
def graphNodes (edges : List (κ × κ × ℕ)) : List κ :=
  dedupKeepFirst (edges.flatMap (fun e => [e.1, e.2.1]))

/-- Adjacency of the undirected graph built from the edge list. -/
def adjB (edges : List (κ × κ × ℕ)) (a b : κ) : Bool :=
  edges.any (fun e => decide ((e.1 = a ∧ e.2.1 = b) ∨ (e.1 = b ∧ e.2.1 = a)))

/-- Propositional adjacency. -/
def Adj (edges : List (κ × κ × ℕ)) (a b : κ) : Prop :=
  adjB edges a b = true

/-- Connectivity: the reflexive-transitive closure of adjacency. -/
def Reach (edges : List (κ × κ × ℕ)) : κ → κ → Prop :=
  Relation.ReflTransGen (Adj edges)

/-- One breadth-first expansion step: add every node of `all` that is not
yet in `s` but adjacent to some member of `s`. -/
def compStep (edges : List (κ × κ × ℕ)) (all s : List κ) : List κ :=
  s ++ all.filter (fun b => !decide (b ∈ s) && s.any (fun a => adjB edges a b))

/-- Iterated expansion with explicit fuel. -/
def compIter (edges : List (κ × κ × ℕ)) (all : List κ) : ℕ → List κ → List κ
  | 0, s => s
  | n + 1, s => compIter edges all n (compStep edges all s)

/-- The connected component of `x`: `all.length` expansion steps from `{x}`
reach a fixed point of `compStep`. -/
def componentOf (edges : List (κ × κ × ℕ)) (all : List κ) (x : κ) : List κ :=
  compIter edges all all.length [x]

/-- The component list: scan the nodes in order and emit the component of
every node not already covered (the semantics of
`nx.connected_components`).  The fuel argument makes the recursion
structural; it is called with fuel `= (graphNodes edges).length`. -/
def componentsAux (edges : List (κ × κ × ℕ)) (all : List κ) : ℕ → List κ → List (List κ)
  | _, [] => []
  | 0, _ :: _ => []
  | n + 1, x :: rest =>
    componentOf edges all x ::
      componentsAux edges all n
        (rest.filter (fun y => !decide (y ∈ componentOf edges all x)))

/-- The connected components of the graph built from the edge list. -/
def componentsOf (edges : List (κ × κ × ℕ)) : List (List κ) :=
  componentsAux edges (graphNodes edges) (graphNodes edges).length (graphNodes edges)

/-- Python `max(cs, key=len)`: the first element of maximal length; `none`
models the `ValueError` raised on an empty sequence. -/
def pickLargest : List (List κ) → Option (List κ)
  | [] => none
  | c :: cs => some (cs.foldl (fun best cur => if best.length < cur.length then cur else best) c)

/-- `max(nx.connected_components(G), key=len)` (lines 280-281 / 288-289). -/
def largestComponent (edges : List (κ × κ × ℕ)) : Option (List κ) :=
  pickLargest (componentsOf edges)

/-- The edge list of `G.subgraph(largest component)`: the input edges with
both endpoints in the component.  The `none` branch is unreachable output:
on an empty component list the source run has already aborted with
`ValueError`. -/
def filteredEdges (edges : List (κ × κ × ℕ)) : List (κ × κ × ℕ) :=
  match largestComponent edges with
  | none => []
  | some c => edges.filter (fun e => decide (e.1 ∈ c) && decide (e.2.1 ∈ c))

end Components

/-! ### Attribute summarizers (lines 54-116, 343-364) -/

section Attributes

variable {α β : Type} [LinearOrder α] [LinearOrder β] [DecidableEq α] [DecidableEq β]

/-- Insert an element into a list sorted descending by `pop`, after the
elements of strictly larger measure. -/
def sortDescInsert (pop : κ → ℕ) (x : κ) : List κ → List κ
  | [] => [x]
  | y :: ys => if pop y < pop x then x :: y :: ys else y :: sortDescInsert pop x ys

/-- `sorted(items, key=measure, reverse=True)` up to the order of ties
(which the source leaves to dict iteration order). -/
def sortDesc (pop : κ → ℕ) (l : List κ) : List κ :=
  l.foldr (sortDescInsert pop) []

/-- `l[:min(3, ll)]` extended with `[None] * (3 - ll)` (lines 77-78 and
110-111; for `ll > 3` the Python repetition count is negative and adds
nothing, matching truncated subtraction). -/
def top3Pad (l : List κ) : List (Option κ) :=
  (l.take (min 3 l.length)).map some ++ List.replicate (3 - l.length) none

/-- `unique_to_name.get(name, '')` applied to an entry of the padded list
(line 81).  A `None` padding entry can equal no tuple key, so it always
takes the `''` default. -/
def resolveOfficerName {κ : Type} [DecidableEq κ] (tbl : List (κ × String)) :
    Option κ → String
  | none => ""
  | some k => pyGetD tbl k ""

/-- `corpid_to_company_name.get(name, '')` applied to an entry of the padded
list (line 114).  Stored values are themselves `str`-or-`None` (`none`
models Python `None`); a missing key yields the string default `some ""`. -/
def resolveCompanyName {κ : Type} [DecidableEq κ] (tbl : List (κ × Option String)) :
    Option κ → Option String
  | none => some ""
  | some k => pyGetD tbl k (some "")

/-- `get_most_popular_officers(corpid)` (lines 54-83).  `enum` is the
iteration order of the set `officers_by_company[corpid]`, `tbl` the
`unique_to_name` dict. -/
def get_most_popular_officers (rows : List (α × β)) (tbl : List (α × String))
    (enum : List α) : List String :=
  (top3Pad (sortDesc (fun o => (companies_by_officer rows o).card) enum)).map
    (resolveOfficerName tbl)

/-- `get_most_popular_companies(unique)` (lines 87-116).  `enum` is the
iteration order of the set `companies_by_officer[unique]`, `tbl` the
`corpid_to_company_name` dict. -/
def get_most_popular_companies (rows : List (α × β)) (tbl : List (β × Option String))
    (enum : List β) : List (Option String) :=
  (top3Pad (sortDesc (fun c => (officers_by_company rows c).card) enum)).map
    (resolveCompanyName tbl)

end Attributes

/-! ### Name lookup tables (lines 343-364) -/

/-- Python `str.strip()`: remove leading and trailing whitespace. -/
def pyStrip (s : String) : String :=
  ⟨((s.data.dropWhile Char.isWhitespace).reverse.dropWhile Char.isWhitespace).reverse⟩

/-- `unique_to_name = dict(zip(df['OfficerUnique'], df['FullName'].apply(strip)))`
over the `(OfficerUnique, FullName)` column pairs of `df`.  (A row whose
`FullName` is `None` aborts the source with `AttributeError` before the dict
is built, so the pairs carry plain strings.) -/
def unique_to_name {κ : Type} [DecidableEq κ] (pairs : List (κ × String)) :
    List (κ × String) :=
  pyDict (pairs.map (fun p => (p.1, pyStrip p.2)))

/-- `corpid_to_company_name = dict(zip(df['CorpId'], df['CompanyName']))`
over the `(CorpId, CompanyName)` column pairs of `df`. -/
def corpid_to_company_name (pairs : List (String × Option String)) :
    List (String × Option String) :=
  pyDict pairs

/-- `corpid_to_alt_name = dict(zip(df['CorpId'], df['AltName']))` over the
`(CorpId, AltName)` column pairs of `df`. -/
def corpid_to_alt_name (pairs : List (String × Option String)) :
    List (String × Option String) :=
  pyDict pairs

/-! ### Membership indices over full rows (for data-quality behavior)

pandas `groupby` drops `None` group keys (`dropna=True` by default), so
`df.groupby('CorpId')` silently discards rows with a null corp id, while
`df.groupby('OfficerUnique')` keeps every row: the key is a tuple, which is
never NA even when both components are `None`. -/

/-- `OfficerUnique`: the tuple `(FullNameNormalized, IdNumber)` (lines
168-169), with `None` components kept as literal values. -/
def officerUniqueOf (r : OfficerRow) : Option String × Option String :=
  (r.fullNameNormalized, r.idNumber)

/-- `officers_by_company` over full rows: keyed only by non-null corp ids
(`groupby('CorpId')` drops the `None` key). -/
def officers_by_company_py (rs : List OfficerRow) (c : String) :
    Finset (Option String × Option String) :=
  ((rs.filter (fun r => decide (r.corpId = some c))).map officerUniqueOf).toFinset

/-- `companies_by_officer` over full rows: keyed by the (possibly all-`None`)
officer tuple; the aggregated corp-id sets keep `None` members. -/
def companies_by_officer_py (rs : List OfficerRow) (k : Option String × Option String) :
    Finset (Option String) :=
  ((rs.filter (fun r => decide (officerUniqueOf r = k))).map (fun r => r.corpId)).toFinset

/-! ### Lemmas: Python dict semantics -/

section PyDictLemmas

variable {κ ν : Type} [DecidableEq κ]

theorem find?_pyInsert_overwrite {d : List (κ × ν)} {k : κ} (v : ν)
    (h : d.any (fun p => decide (p.1 = k)) = true) :
    (d.map (fun p => if p.1 = k then (k, v) else p)).find? (fun p => decide (p.1 = k)) =
      some (k, v) := by
  induction d with
  | nil => simp at h
  | cons a d ih =>
    by_cases ha : a.1 = k
    · rw [List.map_cons, if_pos ha, List.find?_cons_of_pos _ (by simp)]
    · rw [List.map_cons, if_neg ha, List.find?_cons_of_neg _ (by simp [ha])]
      exact ih (by simpa [List.any_cons, ha] using h)

theorem find?_pyInsert_other {d : List (κ × ν)} {k k' : κ} (v : ν) (hk : k' ≠ k) :
    (d.map (fun p => if p.1 = k then (k, v) else p)).find? (fun p => decide (p.1 = k')) =
      d.find? (fun p => decide (p.1 = k')) := by
  induction d with
  | nil => rfl
  | cons a d ih =>
    by_cases ha : a.1 = k
    · have ha' : ¬a.1 = k' := by rw [ha]; exact fun hh => hk hh.symm
      rw [List.map_cons, if_pos ha, List.find?_cons_of_neg _ (by simp [Ne.symm hk]),
        List.find?_cons_of_neg _ (by simp [ha']), ih]
    · rw [List.map_cons, if_neg ha]
      by_cases ha' : a.1 = k'
      · rw [List.find?_cons_of_pos _ (by simp [ha']), List.find?_cons_of_pos _ (by simp [ha'])]
      · rw [List.find?_cons_of_neg _ (by simp [ha']), List.find?_cons_of_neg _ (by simp [ha']),
          ih]

/-- Lookup after a Python dict insertion: the inserted key maps to the new
value, every other key is untouched. -/
theorem pyFind_pyInsert (d : List (κ × ν)) (k k' : κ) (v : ν) :
    pyFind (pyInsert d k v) k' = if k' = k then some v else pyFind d k' := by
  rw [pyInsert]
  by_cases hany : d.any (fun p => decide (p.1 = k)) = true
  · rw [if_pos hany]
    by_cases hk : k' = k
    · subst hk
      rw [if_pos rfl, pyFind, find?_pyInsert_overwrite v hany]
      rfl
    · rw [if_neg hk, pyFind, pyFind, find?_pyInsert_other v hk]
  · rw [if_neg hany]
    have hnone : d.find? (fun p => decide (p.1 = k)) = none := by
      rw [List.find?_eq_none]
      intro x hx hpx
      exact hany (List.any_eq_true.mpr ⟨x, hx, hpx⟩)
    by_cases hk : k' = k
    · subst hk
      rw [if_pos rfl, pyFind, List.find?_append, hnone, Option.none_or,
        List.find?_cons_of_pos _ (by simp)]
      rfl
    · rw [if_neg hk, pyFind, pyFind, List.find?_append,
        List.find?_cons_of_neg _ (by simp; exact fun hh => hk hh.symm), List.find?_nil,
        Option.or_none]

theorem lastValue_append_singleton (ps : List (κ × ν)) (p : κ × ν) (k : κ) :
    lastValue (ps ++ [p]) k = if p.1 = k then some p.2 else lastValue ps k := by
  by_cases hp : p.1 = k
  · simp [lastValue, List.filter_append, hp, List.getLast?_concat]
  · simp [lastValue, List.filter_append, hp]

/-- Looking a key up in `dict(pairs)` yields the value of the last pair
carrying that key. -/
theorem pyFind_pyDict (ps : List (κ × ν)) (k : κ) :
    pyFind (pyDict ps) k = lastValue ps k := by
  induction ps using List.reverseRecOn with
  | nil => rfl
  | append_singleton qs p ih =>
    have hstep : pyDict (qs ++ [p]) = pyInsert (pyDict qs) p.1 p.2 := by
      simp [pyDict, List.foldl_append]
    rw [hstep, pyFind_pyInsert, lastValue_append_singleton]
    by_cases hk : p.1 = k
    · rw [if_pos hk, if_pos hk.symm]
    · rw [if_neg hk, if_neg (fun hh => hk hh.symm), ih]

theorem lastValue_map_value {ν' : Type} (pairs : List (κ × ν)) (f : ν → ν') (k : κ) :
    lastValue (pairs.map (fun p => (p.1, f p.2))) k = (lastValue pairs k).map f := by
  rw [lastValue, lastValue, List.filter_map, List.getLast?_map]
  have hcomp :
      (fun p : κ × ν' => decide (p.1 = k)) ∘ (fun p : κ × ν => (p.1, f p.2)) =
        fun p : κ × ν => decide (p.1 = k) := rfl
  rw [hcomp]
  cases (pairs.filter (fun p => decide (p.1 = k))).getLast? <;> rfl

end PyDictLemmas

/-! ### Lemmas: membership index and projections -/

section ProjectionLemmas

variable {α β : Type} [LinearOrder α] [LinearOrder β] [DecidableEq α] [DecidableEq β]

theorem mem_companies_by_officer {rows : List (α × β)} {o : α} {c : β} :
    c ∈ companies_by_officer rows o ↔ (o, c) ∈ rows := by
  simp only [companies_by_officer, List.mem_toFinset, List.mem_map, List.mem_filter,
    decide_eq_true_eq]
  constructor
  · rintro ⟨r, ⟨hr, h1⟩, h2⟩
    obtain ⟨r1, r2⟩ := r
    dsimp at h1 h2
    rw [h1, h2] at hr
    exact hr
  · intro h
    exact ⟨(o, c), ⟨h, rfl⟩, rfl⟩

theorem mem_officers_by_company {rows : List (α × β)} {c : β} {o : α} :
    o ∈ officers_by_company rows c ↔ (o, c) ∈ rows := by
  simp only [officers_by_company, List.mem_toFinset, List.mem_map, List.mem_filter,
    decide_eq_true_eq]
  constructor
  · rintro ⟨r, ⟨hr, h1⟩, h2⟩
    obtain ⟨r1, r2⟩ := r
    dsimp at h1 h2
    rw [h1, h2] at hr
    exact hr
  · intro h
    exact ⟨(o, c), ⟨h, rfl⟩, rfl⟩

theorem mem_officerKeys {rows : List (α × β)} {a : α} :
    a ∈ officerKeys rows ↔ ∃ c, (a, c) ∈ rows := by
  simp only [officerKeys, List.mem_toFinset, List.mem_map]
  constructor
  · rintro ⟨⟨r1, r2⟩, hr, h1⟩
    dsimp at h1
    rw [h1] at hr
    exact ⟨r2, hr⟩
  · rintro ⟨c, hc⟩
    exact ⟨(a, c), hc, rfl⟩

theorem mem_corpKeys {rows : List (α × β)} {c : β} :
    c ∈ corpKeys rows ↔ ∃ a, (a, c) ∈ rows := by
  simp only [corpKeys, List.mem_toFinset, List.mem_map]
  constructor
  · rintro ⟨⟨r1, r2⟩, hr, h1⟩
    dsimp at h1
    rw [h1] at hr
    exact ⟨r1, hr⟩
  · rintro ⟨a, ha⟩
    exact ⟨(a, c), ha, rfl⟩

/-- The `Counter` count of the officer projection is the exact size of the
set intersection of the two company sets. -/
theorem officerCounter_eq_card (rows : List (α × β)) (a b : α) :
    officerCounter rows a b =
      ((companies_by_officer rows a) ∩ (companies_by_officer rows b)).card := by
  rw [officerCounter, ← Finset.filter_mem_eq_inter, Finset.card_filter]
  refine Finset.sum_congr rfl (fun c _ => ?_)
  simp only [mem_officers_by_company, mem_companies_by_officer]

/-- The `Counter` count of the corp projection is the exact size of the set
intersection of the two officer sets. -/
theorem corpCounter_eq_card (rows : List (α × β)) (c d : β) :
    corpCounter rows c d =
      ((officers_by_company rows c) ∩ (officers_by_company rows d)).card := by
  rw [corpCounter, ← Finset.filter_mem_eq_inter, Finset.card_filter]
  refine Finset.sum_congr rfl (fun o _ => ?_)
  simp only [mem_officers_by_company, mem_companies_by_officer]

theorem officerCounter_symm (rows : List (α × β)) (a b : α) :
    officerCounter rows a b = officerCounter rows b a := by
  rw [officerCounter_eq_card, officerCounter_eq_card, Finset.inter_comm]

theorem corpCounter_symm (rows : List (α × β)) (c d : β) :
    corpCounter rows c d = corpCounter rows d c := by
  rw [corpCounter_eq_card, corpCounter_eq_card, Finset.inter_comm]

theorem mem_officer_edges {rows : List (α × β)} {e : α × α × ℕ} :
    e ∈ officer_edges rows ↔
      ∃ a b, a ∈ officerKeys rows ∧ b ∈ officerKeys rows ∧ b ≠ a ∧
        0 < officerCounter rows a b ∧ e = (min a b, max a b, officerCounter rows a b) := by
  simp only [officer_edges, Finset.mem_biUnion, Finset.mem_image, Finset.mem_filter,
    Finset.mem_erase]
  constructor
  · rintro ⟨a, ha, b, ⟨⟨hba, hbk⟩, hcnt⟩, he⟩
    exact ⟨a, b, ha, hbk, hba, hcnt, he.symm⟩
  · rintro ⟨a, b, ha, hb, hba, hcnt, he⟩
    exact ⟨a, ha, b, ⟨⟨hba, hb⟩, hcnt⟩, he.symm⟩

theorem mem_corp_edges {rows : List (α × β)} {e : β × β × ℕ} :
    e ∈ corp_edges rows ↔
      ∃ c d, c ∈ corpKeys rows ∧ d ∈ corpKeys rows ∧ d ≠ c ∧
        0 < corpCounter rows c d ∧ e = (min c d, max c d, corpCounter rows c d) := by
  simp only [corp_edges, Finset.mem_biUnion, Finset.mem_image, Finset.mem_filter,
    Finset.mem_erase]
  constructor
  · rintro ⟨c, hc, d, ⟨⟨hdc, hdk⟩, hcnt⟩, he⟩
    exact ⟨c, d, hc, hdk, hdc, hcnt, he.symm⟩
  · rintro ⟨c, d, hc, hd, hdc, hcnt, he⟩
    exact ⟨c, hc, d, ⟨⟨hdc, hd⟩, hcnt⟩, he.symm⟩

/-- If two pairs have equal min and equal max, they are the same unordered
pair. -/
theorem minmax_pair_cases {γ : Type} [LinearOrder γ] {a b a' b' : γ}
    (h1 : min a b = min a' b') (h2 : max a b = max a' b') :
    (a = a' ∧ b = b') ∨ (a = b' ∧ b = a') := by
  rcases le_total a b with h | h <;> rcases le_total a' b' with h' | h'
  · rw [min_eq_left h, min_eq_left h'] at h1
    rw [max_eq_right h, max_eq_right h'] at h2
    exact Or.inl ⟨h1, h2⟩
  · rw [min_eq_left h, min_eq_right h'] at h1
    rw [max_eq_right h, max_eq_left h'] at h2
    exact Or.inr ⟨h1, h2⟩
  · rw [min_eq_right h, min_eq_left h'] at h1
    rw [max_eq_left h, max_eq_right h'] at h2
    exact Or.inr ⟨h2, h1⟩
  · rw [min_eq_right h, min_eq_right h'] at h1
    rw [max_eq_left h, max_eq_left h'] at h2
    exact Or.inl ⟨h2, h1⟩

theorem officer_edge_weight_eq (rows : List (α × β)) {a b : α} {w : ℕ}
    (hw : (min a b, max a b, w) ∈ officer_edges rows) :
    w = ((companies_by_officer rows a) ∩ (companies_by_officer rows b)).card := by
  rw [mem_officer_edges] at hw
  obtain ⟨a', b', _, _, _, _, he⟩ := hw
  have h1 : min a b = min a' b' := congrArg (fun p => p.1) he
  have h2 : max a b = max a' b' := congrArg (fun p => p.2.1) he
  have h3 : w = officerCounter rows a' b' := congrArg (fun p => p.2.2) he
  rcases minmax_pair_cases h1 h2 with ⟨ha, hb⟩ | ⟨ha, hb⟩
  · rw [h3, ← ha, ← hb, officerCounter_eq_card]
  · rw [h3, ← ha, ← hb, officerCounter_eq_card, Finset.inter_comm]

theorem corp_edge_weight_eq (rows : List (α × β)) {c d : β} {w : ℕ}
    (hw : (min c d, max c d, w) ∈ corp_edges rows) :
    w = ((officers_by_company rows c) ∩ (officers_by_company rows d)).card := by
  rw [mem_corp_edges] at hw
  obtain ⟨c', d', _, _, _, _, he⟩ := hw
  have h1 : min c d = min c' d' := congrArg (fun p => p.1) he
  have h2 : max c d = max c' d' := congrArg (fun p => p.2.1) he
  have h3 : w = corpCounter rows c' d' := congrArg (fun p => p.2.2) he
  rcases minmax_pair_cases h1 h2 with ⟨hc, hd⟩ | ⟨hc, hd⟩
  · rw [h3, ← hc, ← hd, corpCounter_eq_card]
  · rw [h3, ← hc, ← hd, corpCounter_eq_card, Finset.inter_comm]

theorem officer_edge_exists_iff (rows : List (α × β)) {a b : α} (hab : a ≠ b) :
    (∃ w, (min a b, max a b, w) ∈ officer_edges rows) ↔
      ((companies_by_officer rows a) ∩ (companies_by_officer rows b)).Nonempty := by
  constructor
  · rintro ⟨w, hw⟩
    have := officer_edge_weight_eq rows hw
    rw [mem_officer_edges] at hw
    obtain ⟨a', b', _, _, _, hcnt, he⟩ := hw
    have h3 : w = officerCounter rows a' b' := congrArg (fun p => p.2.2) he
    rw [← h3] at hcnt
    rw [this] at hcnt
    exact Finset.card_pos.mp hcnt
  · intro hne
    obtain ⟨x, hx⟩ := hne
    have hxa : x ∈ companies_by_officer rows a := (Finset.mem_inter.mp hx).1
    have hxb : x ∈ companies_by_officer rows b := (Finset.mem_inter.mp hx).2
    have ha : a ∈ officerKeys rows :=
      mem_officerKeys.mpr ⟨x, mem_companies_by_officer.mp hxa⟩
    have hb : b ∈ officerKeys rows :=
      mem_officerKeys.mpr ⟨x, mem_companies_by_officer.mp hxb⟩
    have hcnt : 0 < officerCounter rows a b := by
      rw [officerCounter_eq_card]
      exact Finset.card_pos.mpr ⟨x, Finset.mem_inter.mpr ⟨hxa, hxb⟩⟩
    exact ⟨officerCounter rows a b,
      mem_officer_edges.mpr ⟨a, b, ha, hb, fun h => hab h.symm, hcnt, rfl⟩⟩

theorem corp_edge_exists_iff (rows : List (α × β)) {c d : β} (hcd : c ≠ d) :
    (∃ w, (min c d, max c d, w) ∈ corp_edges rows) ↔
      ((officers_by_company rows c) ∩ (officers_by_company rows d)).Nonempty := by
  constructor
  · rintro ⟨w, hw⟩
    have := corp_edge_weight_eq rows hw
    rw [mem_corp_edges] at hw
    obtain ⟨c', d', _, _, _, hcnt, he⟩ := hw
    have h3 : w = corpCounter rows c' d' := congrArg (fun p => p.2.2) he
    rw [← h3] at hcnt
    rw [this] at hcnt
    exact Finset.card_pos.mp hcnt
  · intro hne
    obtain ⟨x, hx⟩ := hne
    have hxc : x ∈ officers_by_company rows c := (Finset.mem_inter.mp hx).1
    have hxd : x ∈ officers_by_company rows d := (Finset.mem_inter.mp hx).2
    have hc : c ∈ corpKeys rows :=
      mem_corpKeys.mpr ⟨x, mem_officers_by_company.mp hxc⟩
    have hd : d ∈ corpKeys rows :=
      mem_corpKeys.mpr ⟨x, mem_officers_by_company.mp hxd⟩
    have hcnt : 0 < corpCounter rows c d := by
      rw [corpCounter_eq_card]
      exact Finset.card_pos.mpr ⟨x, Finset.mem_inter.mpr ⟨hxc, hxd⟩⟩
    exact ⟨corpCounter rows c d,
      mem_corp_edges.mpr ⟨c, d, hc, hd, fun h => hcd h.symm, hcnt, rfl⟩⟩

theorem companies_by_officer_dedup (rows : List (α × β)) (o : α) :
    companies_by_officer rows.dedup o = companies_by_officer rows o := by
  ext c
  rw [mem_companies_by_officer, mem_companies_by_officer, List.mem_dedup]

theorem officers_by_company_dedup (rows : List (α × β)) (c : β) :
    officers_by_company rows.dedup c = officers_by_company rows c := by
  ext o
  rw [mem_officers_by_company, mem_officers_by_company, List.mem_dedup]

theorem officerCounter_dedup (rows : List (α × β)) (a b : α) :
    officerCounter rows.dedup a b = officerCounter rows a b := by
  rw [officerCounter, officerCounter, companies_by_officer_dedup]
  exact Finset.sum_congr rfl (fun c _ => by rw [officers_by_company_dedup])

theorem corpCounter_dedup (rows : List (α × β)) (c d : β) :
    corpCounter rows.dedup c d = corpCounter rows c d := by
  rw [corpCounter, corpCounter, officers_by_company_dedup]
  exact Finset.sum_congr rfl (fun o _ => by rw [companies_by_officer_dedup])

/-- Edges of the officer projection are strictly normalized: the stored
source is strictly below the stored target. -/
theorem officer_edges_lt (rows : List (α × β)) :
    ∀ e ∈ officer_edges rows, e.1 < e.2.1 := by
  intro e he
  rw [mem_officer_edges] at he
  obtain ⟨a, b, _, _, hba, _, he⟩ := he
  rw [he]
  exact min_lt_max.mpr (fun h => hba h.symm)

/-- Edges of the corp projection are strictly normalized. -/
theorem corp_edges_lt (rows : List (α × β)) :
    ∀ e ∈ corp_edges rows, e.1 < e.2.1 := by
  intro e he
  rw [mem_corp_edges] at he
  obtain ⟨c, d, _, _, hdc, _, he⟩ := he
  rw [he]
  exact min_lt_max.mpr (fun h => hdc h.symm)

/-- Two stored officer edges on the same endpoint pair coincide. -/
theorem officer_edges_unique (rows : List (α × β)) :
    ∀ e ∈ officer_edges rows, ∀ e' ∈ officer_edges rows,
      e.1 = e'.1 → e.2.1 = e'.2.1 → e = e' := by
  intro e he e' he' h1 h2
  rw [mem_officer_edges] at he he'
  obtain ⟨a, b, _, _, _, _, hea⟩ := he
  obtain ⟨a', b', _, _, _, _, hea'⟩ := he'
  rw [hea, hea'] at h1 h2 ⊢
  dsimp at h1 h2
  have hcnt : officerCounter rows a b = officerCounter rows a' b' := by
    rcases minmax_pair_cases h1 h2 with ⟨hx, hy⟩ | ⟨hx, hy⟩
    · rw [hx, hy]
    · rw [hx, hy, officerCounter_symm]
  rw [h1, h2, hcnt]

/-- Two stored corp edges on the same endpoint pair coincide. -/
theorem corp_edges_unique (rows : List (α × β)) :
    ∀ e ∈ corp_edges rows, ∀ e' ∈ corp_edges rows,
      e.1 = e'.1 → e.2.1 = e'.2.1 → e = e' := by
  intro e he e' he' h1 h2
  rw [mem_corp_edges] at he he'
  obtain ⟨c, d, _, _, _, _, hec⟩ := he
  obtain ⟨c', d', _, _, _, _, hec'⟩ := he'
  rw [hec, hec'] at h1 h2 ⊢
  dsimp at h1 h2
  have hcnt : corpCounter rows c d = corpCounter rows c' d' := by
    rcases minmax_pair_cases h1 h2 with ⟨hx, hy⟩ | ⟨hx, hy⟩
    · rw [hx, hy]
    · rw [hx, hy, corpCounter_symm]
  rw [h1, h2, hcnt]

end ProjectionLemmas

/-! ### Lemmas: graph nodes, adjacency, breadth-first closure -/

section ComponentLemmas

variable {κ : Type} [DecidableEq κ]

theorem mem_foldl_dedup (l : List κ) :
    ∀ acc x, x ∈ l.foldl (fun acc x => if x ∈ acc then acc else acc ++ [x]) acc ↔
      x ∈ acc ∨ x ∈ l := by
  induction l with
  | nil => intro acc x; simp
  | cons a l ih =>
    intro acc x
    rw [List.foldl_cons]
    by_cases ha : a ∈ acc
    · rw [if_pos ha, ih]
      constructor
      · rintro (h | h)
        · exact Or.inl h
        · exact Or.inr (List.mem_cons_of_mem a h)
      · rintro (h | h)
        · exact Or.inl h
        · rcases List.mem_cons.mp h with h | h
          · exact Or.inl (h ▸ ha)
          · exact Or.inr h
    · rw [if_neg ha, ih]
      simp only [List.mem_append, List.mem_singleton, List.mem_cons]
      tauto

theorem nodup_foldl_dedup (l : List κ) :
    ∀ acc : List κ, acc.Nodup →
      (l.foldl (fun acc x => if x ∈ acc then acc else acc ++ [x]) acc).Nodup := by
  induction l with
  | nil => intro acc h; simpa using h
  | cons a l ih =>
    intro acc h
    rw [List.foldl_cons]
    by_cases ha : a ∈ acc
    · rw [if_pos ha]; exact ih acc h
    · rw [if_neg ha]
      refine ih _ (h.append (List.nodup_singleton a) ?_)
      intro x hx hxa
      rw [List.mem_singleton] at hxa
      exact ha (hxa ▸ hx)

theorem mem_dedupKeepFirst {l : List κ} {x : κ} : x ∈ dedupKeepFirst l ↔ x ∈ l := by
  rw [dedupKeepFirst, mem_foldl_dedup]
  simp

theorem nodup_dedupKeepFirst (l : List κ) : (dedupKeepFirst l).Nodup :=
  nodup_foldl_dedup l [] List.nodup_nil

theorem mem_graphNodes {edges : List (κ × κ × ℕ)} {x : κ} :
    x ∈ graphNodes edges ↔ ∃ e ∈ edges, x = e.1 ∨ x = e.2.1 := by
  rw [graphNodes, mem_dedupKeepFirst]
  simp [List.mem_flatMap]

theorem nodup_graphNodes (edges : List (κ × κ × ℕ)) : (graphNodes edges).Nodup :=
  nodup_dedupKeepFirst _

theorem adj_iff {edges : List (κ × κ × ℕ)} {a b : κ} :
    Adj edges a b ↔ ∃ e ∈ edges, (e.1 = a ∧ e.2.1 = b) ∨ (e.1 = b ∧ e.2.1 = a) := by
  simp [Adj, adjB, List.any_eq_true]

theorem adj_symm {edges : List (κ × κ × ℕ)} {a b : κ} (h : Adj edges a b) :
    Adj edges b a := by
  rw [adj_iff] at h ⊢
  obtain ⟨e, he, h⟩ := h
  exact ⟨e, he, h.symm⟩

theorem adj_mem_left {edges : List (κ × κ × ℕ)} {a b : κ} (h : Adj edges a b) :
    a ∈ graphNodes edges := by
  rw [adj_iff] at h
  obtain ⟨e, he, h⟩ := h
  rcases h with ⟨h1, _⟩ | ⟨_, h2⟩
  · exact mem_graphNodes.mpr ⟨e, he, Or.inl h1.symm⟩
  · exact mem_graphNodes.mpr ⟨e, he, Or.inr h2.symm⟩

theorem adj_mem_right {edges : List (κ × κ × ℕ)} {a b : κ} (h : Adj edges a b) :
    b ∈ graphNodes edges :=
  adj_mem_left (adj_symm h)

theorem mem_compStep {edges : List (κ × κ × ℕ)} {all s : List κ} {b : κ} :
    b ∈ compStep edges all s ↔
      b ∈ s ∨ (b ∈ all ∧ b ∉ s ∧ ∃ a ∈ s, Adj edges a b) := by
  simp [compStep, List.mem_filter, List.any_eq_true, Adj]

theorem subset_compStep {edges : List (κ × κ × ℕ)} {all s : List κ} :
    s ⊆ compStep edges all s :=
  fun _ hx => List.mem_append.mpr (Or.inl hx)

theorem compStep_subset_all {edges : List (κ × κ × ℕ)} {all s : List κ}
    (hs : s ⊆ all) : compStep edges all s ⊆ all := by
  intro b hb
  rcases mem_compStep.mp hb with h | ⟨h, _, _⟩
  · exact hs h
  · exact h

theorem nodup_compStep {edges : List (κ × κ × ℕ)} {all s : List κ}
    (hall : all.Nodup) (hs : s.Nodup) : (compStep edges all s).Nodup := by
  refine hs.append (hall.filter _) ?_
  intro x hx hxf
  have := (List.mem_filter.mp hxf).2
  simp only [Bool.and_eq_true, Bool.not_eq_true', decide_eq_false_iff_not] at this
  exact this.1 hx

theorem compIter_fix {edges : List (κ × κ × ℕ)} {all s : List κ}
    (h : compStep edges all s = s) : ∀ n, compIter edges all n s = s := by
  intro n
  induction n with
  | zero => rfl
  | succ n ih => rw [compIter, h, ih]

theorem subset_compIter {edges : List (κ × κ × ℕ)} {all : List κ} :
    ∀ n (s : List κ), s ⊆ compIter edges all n s := by
  intro n
  induction n with
  | zero => intro s x hx; exact hx
  | succ n ih => intro s x hx; exact ih (compStep edges all s) (subset_compStep hx)

theorem compIter_nodup {edges : List (κ × κ × ℕ)} {all : List κ} (hall : all.Nodup) :
    ∀ n (s : List κ), s.Nodup → (compIter edges all n s).Nodup := by
  intro n
  induction n with
  | zero => intro s hs; exact hs
  | succ n ih => intro s hs; exact ih _ (nodup_compStep hall hs)

theorem compIter_subset_all {edges : List (κ × κ × ℕ)} {all : List κ} :
    ∀ n (s : List κ), s ⊆ all → compIter edges all n s ⊆ all := by
  intro n
  induction n with
  | zero => intro s hs; exact hs
  | succ n ih => intro s hs; exact ih _ (compStep_subset_all hs)

theorem compIter_sound {edges : List (κ × κ × ℕ)} {all : List κ} :
    ∀ n (s : List κ) (y : κ), y ∈ compIter edges all n s →
      ∃ x ∈ s, Reach edges x y := by
  intro n
  induction n with
  | zero => intro s y hy; exact ⟨y, hy, Relation.ReflTransGen.refl⟩
  | succ n ih =>
    intro s y hy
    obtain ⟨x, hx, hr⟩ := ih (compStep edges all s) y hy
    rcases mem_compStep.mp hx with h | ⟨_, _, a, ha, hadj⟩
    · exact ⟨x, h, hr⟩
    · exact ⟨a, ha, Relation.ReflTransGen.head hadj hr⟩

theorem length_lt_compStep {edges : List (κ × κ × ℕ)} {all s : List κ}
    (h : compStep edges all s ≠ s) : s.length + 1 ≤ (compStep edges all s).length := by
  rw [compStep] at h ⊢
  rcases hf : all.filter (fun b => !decide (b ∈ s) && s.any (fun a => adjB edges a b)) with
    _ | ⟨b, t⟩
  · rw [hf] at h
    exact absurd (List.append_nil s) h
  · rw [List.length_append, List.length_cons]
    omega

theorem length_le_of_nodup_subset {l l' : List κ} (h : l.Nodup) (hsub : l ⊆ l') :
    l.length ≤ l'.length := by
  calc l.length = l.toFinset.card := (List.toFinset_card_of_nodup h).symm
    _ ≤ l'.toFinset.card := Finset.card_le_card
        (fun x hx => List.mem_toFinset.mpr (hsub (List.mem_toFinset.mp hx)))
    _ ≤ l'.length := l'.toFinset_card_le

theorem compIter_fix_or_long {edges : List (κ × κ × ℕ)} {all : List κ}
    (hall : all.Nodup) :
    ∀ n (s : List κ), s.Nodup → s ⊆ all →
      compStep edges all (compIter edges all n s) = compIter edges all n s ∨
        s.length + n ≤ (compIter edges all n s).length := by
  intro n
  induction n with
  | zero => intro s _ _; right; simp [compIter]
  | succ n ih =>
    intro s hs hsub
    by_cases hfix : compStep edges all s = s
    · left
      have h1 : compIter edges all (n + 1) s = s := compIter_fix hfix (n + 1)
      rw [h1, hfix]
    · rcases ih (compStep edges all s) (nodup_compStep hall hs)
          (compStep_subset_all hsub) with h | h
      · left; exact h
      · right
        have hgrow := length_lt_compStep hfix
        calc s.length + (n + 1) = (s.length + 1) + n := by omega
          _ ≤ (compStep edges all s).length + n := by omega
          _ ≤ (compIter edges all n (compStep edges all s)).length := h
          _ = (compIter edges all (n + 1) s).length := rfl

/-- After `all.length` steps the closure from a node of `all` is a fixed
point of `compStep`. -/
theorem componentOf_fix {edges : List (κ × κ × ℕ)} {all : List κ}
    (hall : all.Nodup) {x : κ} (hx : x ∈ all) :
    compStep edges all (componentOf edges all x) = componentOf edges all x := by
  rcases compIter_fix_or_long hall all.length [x] (List.nodup_singleton x)
      (fun y hy => (List.mem_singleton.mp hy) ▸ hx) with h | h
  · exact h
  · exfalso
    have hnodup : (compIter edges all all.length [x]).Nodup :=
      compIter_nodup hall all.length [x] (List.nodup_singleton x)
    have hsub : compIter edges all all.length [x] ⊆ all :=
      compIter_subset_all all.length [x] (fun y hy => (List.mem_singleton.mp hy) ▸ hx)
    have := length_le_of_nodup_subset hnodup hsub
    simp only [List.length_singleton] at h
    omega

theorem mem_componentOf_self {edges : List (κ × κ × ℕ)} {all : List κ} {x : κ} :
    x ∈ componentOf edges all x :=
  subset_compIter all.length [x] (List.mem_singleton_self x)

theorem componentOf_sound {edges : List (κ × κ × ℕ)} {all : List κ} {x y : κ}
    (hy : y ∈ componentOf edges all x) : Reach edges x y := by
  obtain ⟨x', hx', hr⟩ := compIter_sound all.length [x] y hy
  rw [List.mem_singleton] at hx'
  exact hx' ▸ hr

theorem componentOf_closed {edges : List (κ × κ × ℕ)} {all : List κ}
    (hall : all.Nodup) {x : κ} (hx : x ∈ all) {a b : κ}
    (ha : a ∈ componentOf edges all x) (hb : b ∈ all) (hadj : Adj edges a b) :
    b ∈ componentOf edges all x := by
  by_contra hnb
  have hmem : b ∈ compStep edges all (componentOf edges all x) :=
    mem_compStep.mpr (Or.inr ⟨hb, hnb, a, ha, hadj⟩)
  rw [componentOf_fix hall hx] at hmem
  exact hnb hmem

/-- With `all` the node list of the graph, the closure from `x` is exactly
the set of nodes reachable from `x`. -/
theorem mem_componentOf_iff {edges : List (κ × κ × ℕ)} {x y : κ}
    (hx : x ∈ graphNodes edges) :
    y ∈ componentOf edges (graphNodes edges) x ↔ Reach edges x y := by
  constructor
  · exact componentOf_sound
  · intro h
    induction h with
    | refl => exact mem_componentOf_self
    | tail _ hadj ih =>
      exact componentOf_closed (nodup_graphNodes edges) hx ih (adj_mem_right hadj) hadj

theorem componentsAux_mem {edges : List (κ × κ × ℕ)} {all : List κ} :
    ∀ n (l : List κ), l ⊆ all → ∀ c ∈ componentsAux edges all n l,
      ∃ x, x ∈ all ∧ c = componentOf edges all x := by
  intro n
  induction n with
  | zero =>
    intro l _ c hc
    cases l with
    | nil => simp [componentsAux] at hc
    | cons a l => simp [componentsAux] at hc
  | succ n ih =>
    intro l hsub c hc
    cases l with
    | nil => simp [componentsAux] at hc
    | cons x rest =>
      rw [componentsAux] at hc
      rcases List.mem_cons.mp hc with h | h
      · exact ⟨x, hsub (List.mem_cons_self x rest), h⟩
      · refine ih _ ?_ c h
        intro y hy
        exact hsub (List.mem_cons_of_mem x (List.mem_of_mem_filter hy))

theorem componentsAux_cover {edges : List (κ × κ × ℕ)} {all : List κ} :
    ∀ n (l : List κ), l.length ≤ n → ∀ y ∈ l,
      ∃ c ∈ componentsAux edges all n l, y ∈ c := by
  intro n
  induction n with
  | zero =>
    intro l hl y hy
    rw [Nat.le_zero, List.length_eq_zero] at hl
    subst hl
    simp at hy
  | succ n ih =>
    intro l hl y hy
    cases l with
    | nil => simp at hy
    | cons x rest =>
      rw [componentsAux]
      rcases List.mem_cons.mp hy with h | h
      · exact ⟨componentOf edges all x, List.mem_cons_self _ _, h ▸ mem_componentOf_self⟩
      · by_cases hyc : y ∈ componentOf edges all x
        · exact ⟨componentOf edges all x, List.mem_cons_self _ _, hyc⟩
        · have hmem : y ∈ rest.filter (fun z => !decide (z ∈ componentOf edges all x)) :=
            List.mem_filter.mpr ⟨h, by simp [hyc]⟩
          have hlen : (rest.filter
              (fun z => !decide (z ∈ componentOf edges all x))).length ≤ n := by
            have h1 := List.length_filter_le
              (fun z => !decide (z ∈ componentOf edges all x)) rest
            have h2 : rest.length + 1 ≤ n + 1 := by simpa using hl
            omega
          obtain ⟨c, hc, hyc'⟩ := ih _ hlen y hmem
          exact ⟨c, List.mem_cons_of_mem _ hc, hyc'⟩

theorem foldl_max_spec (cs : List (List κ)) :
    ∀ b : List κ,
      ((cs.foldl (fun best cur => if best.length < cur.length then cur else best) b = b ∨
        cs.foldl (fun best cur => if best.length < cur.length then cur else best) b ∈ cs) ∧
      b.length ≤ (cs.foldl (fun best cur => if best.length < cur.length then cur else best) b).length ∧
      ∀ d ∈ cs, d.length ≤ (cs.foldl (fun best cur => if best.length < cur.length then cur else best) b).length) := by
  induction cs with
  | nil => intro b; exact ⟨Or.inl rfl, le_refl _, by simp⟩
  | cons a cs ih =>
    intro b
    rw [List.foldl_cons]
    obtain ⟨hmem, hb, hall⟩ := ih (if b.length < a.length then a else b)
    refine ⟨?_, ?_, ?_⟩
    · rcases hmem with h | h
      · by_cases hba : b.length < a.length
        · right
          rw [h, if_pos hba]
          exact List.mem_cons_self a cs
        · left
          rw [h, if_neg hba]
      · exact Or.inr (List.mem_cons_of_mem a h)
    · refine le_trans ?_ hb
      by_cases hba : b.length < a.length
      · rw [if_pos hba]; omega
      · rw [if_neg hba]
    · intro d hd
      rcases List.mem_cons.mp hd with h | h
      · rw [h]
        refine le_trans ?_ hb
        by_cases hba : b.length < a.length
        · rw [if_pos hba]
        · rw [if_neg hba]; omega
      · exact hall d h

theorem pickLargest_spec {cs : List (List κ)} (h : cs ≠ []) :
    ∃ m, pickLargest cs = some m ∧ m ∈ cs ∧ ∀ d ∈ cs, d.length ≤ m.length := by
  cases cs with
  | nil => exact absurd rfl h
  | cons c cs =>
    obtain ⟨hmem, hc, hall⟩ := foldl_max_spec cs c
    refine ⟨_, rfl, ?_, ?_⟩
    · rcases hmem with h | h
      · rw [h]; exact List.mem_cons_self c cs
      · exact List.mem_cons_of_mem c h
    · intro d hd
      rcases List.mem_cons.mp hd with h | h
      · exact h ▸ hc
      · exact hall d h

theorem componentsOf_ne_nil {edges : List (κ × κ × ℕ)} (h : edges ≠ []) :
    componentsOf edges ≠ [] := by
  rw [componentsOf]
  cases hn : graphNodes edges with
  | nil =>
    exfalso
    cases edges with
    | nil => exact h rfl
    | cons e es =>
      have hmem : e.1 ∈ graphNodes (e :: es) :=
        mem_graphNodes.mpr ⟨e, List.mem_cons_self _ _, Or.inl rfl⟩
      rw [hn] at hmem
      exact (List.not_mem_nil _) hmem
  | cons x rest =>
    rw [List.length_cons, componentsAux]
    exact List.cons_ne_nil _ _

end ComponentLemmas

/-! ### Lemmas: invariance of the projections under input row order -/

section PermLemmas

variable {α β : Type} [LinearOrder α] [LinearOrder β] [DecidableEq α] [DecidableEq β]

theorem companies_by_officer_perm {rows rows' : List (α × β)} (h : rows.Perm rows') :
    companies_by_officer rows = companies_by_officer rows' := by
  funext o
  ext c
  rw [mem_companies_by_officer, mem_companies_by_officer]
  exact h.mem_iff

theorem officers_by_company_perm {rows rows' : List (α × β)} (h : rows.Perm rows') :
    officers_by_company rows = officers_by_company rows' := by
  funext c
  ext o
  rw [mem_officers_by_company, mem_officers_by_company]
  exact h.mem_iff

theorem officerKeys_perm {rows rows' : List (α × β)} (h : rows.Perm rows') :
    officerKeys rows = officerKeys rows' := by
  ext a
  rw [mem_officerKeys, mem_officerKeys]
  exact exists_congr fun c => h.mem_iff

theorem corpKeys_perm {rows rows' : List (α × β)} (h : rows.Perm rows') :
    corpKeys rows = corpKeys rows' := by
  ext c
  rw [mem_corpKeys, mem_corpKeys]
  exact exists_congr fun a => h.mem_iff

theorem officerCounter_perm {rows rows' : List (α × β)} (h : rows.Perm rows') :
    officerCounter rows = officerCounter rows' := by
  funext a b
  simp only [officerCounter, companies_by_officer_perm h, officers_by_company_perm h]

theorem corpCounter_perm {rows rows' : List (α × β)} (h : rows.Perm rows') :
    corpCounter rows = corpCounter rows' := by
  funext c d
  simp only [corpCounter, companies_by_officer_perm h, officers_by_company_perm h]

theorem officer_edges_perm {rows rows' : List (α × β)} (h : rows.Perm rows') :
    officer_edges rows = officer_edges rows' := by
  simp only [officer_edges, officerKeys_perm h, officerCounter_perm h]

theorem corp_edges_perm {rows rows' : List (α × β)} (h : rows.Perm rows') :
    corp_edges rows = corp_edges rows' := by
  simp only [corp_edges, corpKeys_perm h, corpCounter_perm h]

end PermLemmas

/-! ### Lemmas: ranking and padding -/

section RankingLemmas

variable {κ : Type}

theorem length_sortDescInsert (pop : κ → ℕ) (x : κ) :
    ∀ l : List κ, (sortDescInsert pop x l).length = l.length + 1 := by
  intro l
  induction l with
  | nil => rfl
  | cons y ys ih =>
    rw [sortDescInsert]
    by_cases h : pop y < pop x
    · rw [if_pos h]
      rfl
    · rw [if_neg h, List.length_cons, List.length_cons, ih]

theorem length_sortDesc (pop : κ → ℕ) (l : List κ) :
    (sortDesc pop l).length = l.length := by
  induction l with
  | nil => rfl
  | cons y ys ih =>
    rw [sortDesc, List.foldr_cons, length_sortDescInsert, List.length_cons]
    rw [sortDesc] at ih
    rw [ih]

theorem length_top3Pad (l : List κ) : (top3Pad l).length = 3 := by
  rw [top3Pad, List.length_append, List.length_map, List.length_take, List.length_replicate]
  rcases le_total 3 l.length with h | h
  · rw [min_eq_left h, min_eq_left h]
    omega
  · rw [min_eq_right h, min_self]
    omega

theorem top3Pad_drop [DecidableEq κ] (l : List κ) :
    (top3Pad l).drop (min 3 l.length) = List.replicate (3 - l.length) none := by
  have hlen : ((l.take (min 3 l.length)).map some).length = min 3 l.length := by
    rw [List.length_map, List.length_take]
    exact min_eq_left (min_le_right 3 l.length)
  rw [top3Pad, List.drop_left' hlen]

end RankingLemmas

/-! ### Claim theorems -/

section Claims

variable {α β : Type} [LinearOrder α] [LinearOrder β] [DecidableEq α] [DecidableEq β]

/-- C1: for distinct officers `a`, `b` the projection stores an edge between
them iff they share at least one company, and the stored weight (the
`Counter` count) is exactly `|companies_of(a) ∩ companies_of(b)|`; duplicate
input rows do not change any weight because memberships are collected into
sets.  Symmetrically for the company projection with shared-officer
counts. -/
theorem C1_projection_weight (rows : List (α × β)) (a b : α) (c d : β)
    (hab : a ≠ b) (hcd : c ≠ d) :
    officerCounter rows a b =
        ((companies_by_officer rows a) ∩ (companies_by_officer rows b)).card
  ∧ ((∃ w, (min a b, max a b, w) ∈ officer_edges rows) ↔
        ((companies_by_officer rows a) ∩ (companies_by_officer rows b)).Nonempty)
  ∧ (∀ w, (min a b, max a b, w) ∈ officer_edges rows →
        w = ((companies_by_officer rows a) ∩ (companies_by_officer rows b)).card)
  ∧ officerCounter rows.dedup a b = officerCounter rows a b
  ∧ corpCounter rows c d =
        ((officers_by_company rows c) ∩ (officers_by_company rows d)).card
  ∧ ((∃ w, (min c d, max c d, w) ∈ corp_edges rows) ↔
        ((officers_by_company rows c) ∩ (officers_by_company rows d)).Nonempty)
  ∧ (∀ w, (min c d, max c d, w) ∈ corp_edges rows →
        w = ((officers_by_company rows c) ∩ (officers_by_company rows d)).card)
  ∧ corpCounter rows.dedup c d = corpCounter rows c d :=
  ⟨officerCounter_eq_card rows a b,
   officer_edge_exists_iff rows hab,
   fun _ hw => officer_edge_weight_eq rows hw,
   officerCounter_dedup rows a b,
   corpCounter_eq_card rows c d,
   corp_edge_exists_iff rows hcd,
   fun _ hw => corp_edge_weight_eq rows hw,
   corpCounter_dedup rows c d⟩

/-- Witness for C1 at a concrete table: officers 1 and 2 share companies 10
and 11, company 10 and company 11 share officers 1 and 2. -/
theorem C1_projection_weight_witness :
    (1 : ℕ) ≠ 2 ∧ (10 : ℕ) ≠ 11 ∧
      officerCounter [((1 : ℕ), (10 : ℕ)), (2, 10), (1, 11), (2, 11), (3, 11)] 1 2 =
        ((companies_by_officer [((1 : ℕ), (10 : ℕ)), (2, 10), (1, 11), (2, 11), (3, 11)] 1) ∩
          (companies_by_officer [((1 : ℕ), (10 : ℕ)), (2, 10), (1, 11), (2, 11), (3, 11)] 2)).card :=
  ⟨by decide, by decide,
    (C1_projection_weight [((1 : ℕ), (10 : ℕ)), (2, 10), (1, 11), (2, 11), (3, 11)]
      1 2 10 11 (by decide) (by decide)).1⟩

/-- C5: in each projection every unordered pair of distinct nodes is stored
at most once, with endpoints normalized (minimum first, strictly below the
maximum), and the counted weight is symmetric in its two arguments. -/
theorem C5_normalized_edges (rows : List (α × β)) :
    (∀ e ∈ officer_edges rows, e.1 < e.2.1)
  ∧ (∀ e ∈ officer_edges rows, ∀ e' ∈ officer_edges rows,
      e.1 = e'.1 → e.2.1 = e'.2.1 → e = e')
  ∧ (∀ a b : α, officerCounter rows a b = officerCounter rows b a)
  ∧ (∀ e ∈ corp_edges rows, e.1 < e.2.1)
  ∧ (∀ e ∈ corp_edges rows, ∀ e' ∈ corp_edges rows,
      e.1 = e'.1 → e.2.1 = e'.2.1 → e = e')
  ∧ (∀ c d : β, corpCounter rows c d = corpCounter rows d c) :=
  ⟨officer_edges_lt rows, officer_edges_unique rows, officerCounter_symm rows,
   corp_edges_lt rows, corp_edges_unique rows, corpCounter_symm rows⟩

/-- Witness for C5: the single officer edge of a two-officer company is
stored as `(1, 2, 1)` and its source is strictly below its target. -/
theorem C5_normalized_edges_witness :
    (1, 2, 1) ∈ officer_edges [((1 : ℕ), (10 : ℕ)), (2, 10)] ∧ (1 : ℕ) < 2 :=
  ⟨by decide,
    (C5_normalized_edges [((1 : ℕ), (10 : ℕ)), (2, 10)]).1 (1, 2, 1) (by decide)⟩

/-- C7: no projected edge, in either graph, has equal endpoints: the
self-count is deleted from the `Counter` before edges are emitted. -/
theorem C7_no_self_loops (rows : List (α × β)) :
    (∀ e ∈ officer_edges rows, e.1 ≠ e.2.1)
  ∧ (∀ e ∈ corp_edges rows, e.1 ≠ e.2.1) :=
  ⟨fun e he => ne_of_lt (officer_edges_lt rows e he),
   fun e he => ne_of_lt (corp_edges_lt rows e he)⟩

/-- Witness for C7 at the corp projection of a concrete table. -/
theorem C7_no_self_loops_witness :
    (10, 11, 1) ∈ corp_edges [((1 : ℕ), (10 : ℕ)), (1, 11)] ∧ (10 : ℕ) ≠ 11 :=
  ⟨by decide,
    (C7_no_self_loops [((1 : ℕ), (10 : ℕ)), (1, 11)]).2 (10, 11, 1) (by decide)⟩

/-- C4 counterexample: on an empty projected graph the component filter does
not return an empty graph.  `nx.connected_components` of the empty graph
yields no components and `max(..., key=len)` raises `ValueError` on an
empty sequence (modelled by `pickLargest` returning `none`), so the run
aborts instead of producing an empty graph. -/
theorem C4_empty_graph_counterexample :
    largestComponent ([] : List (ℕ × ℕ × ℕ)) = none := by decide

/-- C4 (amended): on a nonempty projected graph the component filter selects
a component of maximal node count among the connected components (which
cover every node, and each of which is exactly a reachability class), and
the filtered graph keeps exactly the edges with both endpoints in that
component; on an empty projected graph the run aborts
(`C4_empty_graph_counterexample`) instead of returning an empty graph. -/
theorem C4_largest_component {κ : Type} [DecidableEq κ] (edges : List (κ × κ × ℕ))
    (h : edges ≠ []) :
    ∃ c, largestComponent edges = some c ∧
      c ∈ componentsOf edges ∧
      (∀ d ∈ componentsOf edges, d.length ≤ c.length) ∧
      (∀ y ∈ graphNodes edges, ∃ d ∈ componentsOf edges, y ∈ d) ∧
      (∃ x ∈ c, ∀ y, y ∈ c ↔ Reach edges x y) ∧
      (∀ e, e ∈ filteredEdges edges ↔ e ∈ edges ∧ e.1 ∈ c ∧ e.2.1 ∈ c) := by
  obtain ⟨m, hm, hmem, hmax⟩ := pickLargest_spec (componentsOf_ne_nil h)
  have hlc : largestComponent edges = some m := by rw [largestComponent]; exact hm
  refine ⟨m, hlc, hmem, hmax, ?_, ?_, ?_⟩
  · intro y hy
    rw [componentsOf]
    exact componentsAux_cover (graphNodes edges).length (graphNodes edges) (le_refl _) y hy
  · rw [componentsOf] at hmem
    obtain ⟨x, hx, hcx⟩ := componentsAux_mem (graphNodes edges).length (graphNodes edges)
      (fun _ hz => hz) m hmem
    refine ⟨x, ?_, ?_⟩
    · rw [hcx]; exact mem_componentOf_self
    · intro y
      rw [hcx]
      exact mem_componentOf_iff hx
  · intro e
    rw [filteredEdges, hlc]
    simp [List.mem_filter, and_assoc]

/-- Witness for C4 at a one-edge graph. -/
theorem C4_largest_component_witness :
    ([((1 : ℕ), (2 : ℕ), (5 : ℕ))] : List (ℕ × ℕ × ℕ)) ≠ [] ∧
      ∃ c, largestComponent [((1 : ℕ), (2 : ℕ), (5 : ℕ))] = some c ∧
        c ∈ componentsOf [((1 : ℕ), (2 : ℕ), (5 : ℕ))] := by
  refine ⟨by decide, ?_⟩
  obtain ⟨c, h1, h2, _⟩ := C4_largest_component [((1 : ℕ), (2 : ℕ), (5 : ℕ))] (by decide)
  exact ⟨c, h1, h2⟩

/-- C6 counterexample: the persisted edge table is not independent of the
(unspecified, process-dependent) Python set iteration order.  The two lists
below enumerate the same deduplicated edge set; the graph has two components
of equal size, `max(..., key=len)` keeps the first component encountered,
and the two enumeration orders therefore produce different output tables. -/
theorem C6_iteration_order_counterexample :
    ([((1 : ℕ), (2 : ℕ), (1 : ℕ)), (3, 4, 1)] : List (ℕ × ℕ × ℕ)).toFinset =
        ([((3 : ℕ), (4 : ℕ), (1 : ℕ)), (1, 2, 1)] : List (ℕ × ℕ × ℕ)).toFinset ∧
      ([((1 : ℕ), (2 : ℕ), (1 : ℕ)), (3, 4, 1)] : List (ℕ × ℕ × ℕ)).Nodup ∧
      ([((3 : ℕ), (4 : ℕ), (1 : ℕ)), (1, 2, 1)] : List (ℕ × ℕ × ℕ)).Nodup ∧
      filteredEdges [((1 : ℕ), (2 : ℕ), (1 : ℕ)), (3, 4, 1)] ≠
        filteredEdges [((3 : ℕ), (4 : ℕ), (1 : ℕ)), (1, 2, 1)] :=
  ⟨by decide, by decide, by decide, by decide⟩

/-- C6 (amended): the deduplicated projected edge sets are determined by the
input rows alone — they are invariant under any reordering of the input
rows — while the persisted row order and the largest-component tie-break
follow unspecified set iteration order
(`C6_iteration_order_counterexample`), so repeated runs agree on the edge
sets but need not be byte-identical. -/
theorem C6_edges_input_order_invariant (rows rows' : List (α × β))
    (h : rows.Perm rows') :
    officer_edges rows = officer_edges rows' ∧ corp_edges rows = corp_edges rows' :=
  ⟨officer_edges_perm h, corp_edges_perm h⟩

/-- Witness for C6 at a concrete reordering. -/
theorem C6_edges_input_order_invariant_witness :
    ([((1 : ℕ), (10 : ℕ)), (2, 10)] : List (ℕ × ℕ)).Perm [(2, 10), (1, 10)] ∧
      officer_edges [((1 : ℕ), (10 : ℕ)), (2, 10)] = officer_edges [(2, 10), (1, 10)] :=
  ⟨by decide,
    (C6_edges_input_order_invariant [((1 : ℕ), (10 : ℕ)), (2, 10)] [(2, 10), (1, 10)]
      (by decide)).1⟩

/-- C2 counterexample: documents missing the top-level `Officers` or `Corp`
keys do NOT fail the run.  The loader reads them with
`company.get('Corp', dict())` / `company.get('Officers', list())`, so a
document without `Officers` silently contributes zero rows and a document
without `Corp` contributes rows whose company fields are all null — there
is no key-validation or error path in the flattening loop at all. -/
theorem C2_missing_keys_counterexample :
    flattenDoc ⟨some ⟨some "C1", some "Acme", none, none, none, none, none⟩, none⟩ = [] ∧
      flattenDoc ⟨none, some [⟨some "O1", some "bob", some "Bob", none, some "77"⟩]⟩ =
        [⟨some "O1", some "bob", some "Bob", none, some "77",
          none, none, none, none, none, none, none⟩] :=
  ⟨rfl, rfl⟩

/-- C2 (amended): malformed JSON aborts the run with the parser's exception,
but a file missing the top-level `Corp` or `Officers` keys is processed
without any error: missing `Officers` yields no rows, missing `Corp` yields
one row per officer with every company field null. -/
theorem C2_loader_defaults (d : CompanyDoc) :
    (d.officers = none → flattenDoc d = [])
  ∧ (∀ os, d.officers = some os → (flattenDoc d).length = os.length)
  ∧ (d.corp = none → ∀ r ∈ flattenDoc d,
      r.corpId = none ∧ r.companyName = none ∧ r.registrationNumber = none ∧
      r.holdingCompanyName = none ∧ r.holdingCompanyRegNumber = none ∧
      r.registrationDate = none ∧ r.altName = none) := by
  refine ⟨?_, ?_, ?_⟩
  · intro h
    rw [flattenDoc, h]
    rfl
  · intro os h
    rw [flattenDoc, h]
    simp
  · intro h r hr
    rw [flattenDoc] at hr
    obtain ⟨o, _, ho⟩ := List.mem_map.mp hr
    rw [← ho]
    simp [corpFieldsOf, h, emptyCorp, rowOf]

/-- Witness for C2 at a document with a `Corp` object but no `Officers`
key. -/
theorem C2_loader_defaults_witness :
    (⟨some ⟨some "C1", some "Acme", none, none, none, none, none⟩, none⟩ :
        CompanyDoc).officers = none ∧
      flattenDoc ⟨some ⟨some "C1", some "Acme", none, none, none, none, none⟩, none⟩ = [] :=
  ⟨rfl,
    (C2_loader_defaults
      ⟨some ⟨some "C1", some "Acme", none, none, none, none, none⟩, none⟩).1 rfl⟩

/-- C3 counterexample: with two input rows for the same officer identity and
distinct full names, the display-name lookup returns the LAST-encountered
name, not the first: `dict(zip(ks, vs))` lets later pairs overwrite earlier
ones. -/
theorem C3_first_encountered_counterexample :
    pyFind (unique_to_name
        [(((some "bob" : Option String), (some "7" : Option String)), "First"),
          ((some "bob", some "7"), "Second")]) (some "bob", some "7") = some "Second" ∧
      pyFind (unique_to_name
        [(((some "bob" : Option String), (some "7" : Option String)), "First"),
          ((some "bob", some "7"), "Second")]) (some "bob", some "7") ≠ some "First" :=
  ⟨by decide, by decide⟩

/-- C3 (amended): for officer identities occurring in several rows the
display-name lookup maps the identity to the last-encountered `full_name`
(trimmed of surrounding whitespace); likewise the company-name and alt-name
lookups map a duplicated corp_id to the last-encountered value. -/
theorem C3_lookup_last_encountered {κ : Type} [DecidableEq κ]
    (namePairs : List (κ × String)) (k : κ)
    (corpPairs altPairs : List (String × Option String)) (c : String) :
    pyFind (unique_to_name namePairs) k =
        ((namePairs.filter (fun p => decide (p.1 = k))).getLast?).map
          (fun p => pyStrip p.2)
  ∧ pyFind (corpid_to_company_name corpPairs) c = lastValue corpPairs c
  ∧ pyFind (corpid_to_alt_name altPairs) c = lastValue altPairs c := by
  refine ⟨?_, ?_, ?_⟩
  · rw [unique_to_name, pyFind_pyDict, lastValue_map_value, lastValue]
    cases (namePairs.filter fun p => decide (p.1 = k)).getLast? <;> rfl
  · rw [corpid_to_company_name, pyFind_pyDict]
  · rw [corpid_to_alt_name, pyFind_pyDict]

/-- C8 counterexample: the claimed consequence fails when the single
affiliation's display name strips to the empty string.  Officer key 1 has
exactly one opposite-type affiliation, but its stored display name is `""`,
so all three ranked fields are empty instead of exactly one non-empty and
two empty. -/
theorem C8_empty_name_counterexample :
    get_most_popular_officers [((1 : ℕ), (10 : ℕ))] [(1, "")] [1] = ["", "", ""] ∧
      ((get_most_popular_officers [((1 : ℕ), (10 : ℕ))] [(1, "")] [1]).filter
          (fun s => decide (s ≠ ""))).length ≠ 1 :=
  ⟨by decide, by decide⟩

/-- C8 (amended): each summarizer always produces exactly 3 ranked fields,
the positions beyond the affiliation count are padded with the empty string
(for the company-name side: the string default `some ""`, never Python
`None`), and a node with exactly 1 affiliation whose resolved display name
is non-empty yields exactly 1 non-empty field and 2 empty ones (if the
stored name is itself empty all three fields are empty,
`C8_empty_name_counterexample`). -/
theorem C8_three_fields_padding (rows : List (α × β)) (tbl : List (α × String))
    (tblC : List (β × Option String)) (enum : List α) (enumC : List β) :
    (get_most_popular_officers rows tbl enum).length = 3
  ∧ (get_most_popular_officers rows tbl enum).drop (min 3 enum.length) =
      List.replicate (3 - enum.length) ""
  ∧ (∀ x, enum = [x] →
      get_most_popular_officers rows tbl enum = [pyGetD tbl x "", "", ""])
  ∧ (∀ x, enum = [x] → pyGetD tbl x "" ≠ "" →
      ((get_most_popular_officers rows tbl enum).filter
          (fun s => decide (s ≠ ""))).length = 1 ∧
        ((get_most_popular_officers rows tbl enum).filter
          (fun s => decide (s = ""))).length = 2)
  ∧ (get_most_popular_companies rows tblC enumC).length = 3
  ∧ (get_most_popular_companies rows tblC enumC).drop (min 3 enumC.length) =
      List.replicate (3 - enumC.length) (some "")
  ∧ (∀ c, enumC = [c] →
      get_most_popular_companies rows tblC enumC =
        [pyGetD tblC c (some ""), some "", some ""]) := by
  have hlen1 : (sortDesc (fun o => (companies_by_officer rows o).card) enum).length =
      enum.length := length_sortDesc _ enum
  have hlen2 : (sortDesc (fun c => (officers_by_company rows c).card) enumC).length =
      enumC.length := length_sortDesc _ enumC
  refine ⟨?_, ?_, ?_, ?_, ?_, ?_, ?_⟩
  · rw [get_most_popular_officers, List.length_map, length_top3Pad]
  · rw [get_most_popular_officers, ← hlen1, ← List.map_drop, top3Pad_drop,
      List.map_replicate]
    rfl
  · intro x hx
    subst hx
    rfl
  · intro x hx hn
    subst hx
    have hres : get_most_popular_officers rows tbl [x] = [pyGetD tbl x "", "", ""] := rfl
    rw [hres]
    constructor
    · simp [List.filter_cons, hn]
    · simp [List.filter_cons, hn]
  · rw [get_most_popular_companies, List.length_map, length_top3Pad]
  · rw [get_most_popular_companies, ← hlen2, ← List.map_drop, top3Pad_drop,
      List.map_replicate]
    rfl
  · intro c hc
    subst hc
    rfl

/-- Witness for C8: a company with a single officer whose name is non-empty
yields exactly one non-empty field. -/
theorem C8_three_fields_padding_witness :
    ([1] : List ℕ) = [1] ∧ pyGetD [((1 : ℕ), "Bob")] 1 "" ≠ "" ∧
      ((get_most_popular_officers [((1 : ℕ), (10 : ℕ))] [(1, "Bob")] [1]).filter
          (fun s => decide (s ≠ ""))).length = 1 :=
  ⟨rfl, by decide,
    ((C8_three_fields_padding [((1 : ℕ), (10 : ℕ))] [(1, "Bob")]
        ([] : List (ℕ × Option String)) [1] ([] : List ℕ)).2.2.2.1 1 rfl (by decide)).1⟩

/-- C9 counterexample: a record whose identity key is entirely null is NOT
rejected and no warning or count exists anywhere in the script: the tuple
`(None, None)` acts as a regular identity key, and the record enters both
membership indices. -/
theorem C9_null_identity_counterexample :
    (none, none) ∈ officers_by_company_py
        [⟨none, none, none, none, none, some "C1", none, none, none, none, none, none⟩]
        "C1" ∧
      companies_by_officer_py
        [⟨none, none, none, none, none, some "C1", none, none, none, none, none, none⟩]
        (none, none) = {some "C1"} :=
  ⟨by decide, by decide⟩

/-- C9 (amended): no rejection, warning, or count exists.  Every record —
null identity components included — contributes its corp id (null or not)
to its identity's company set, and every record with a non-null corp id
contributes its identity to that company's officer set; a null corp id is
merely dropped from the company-index keys by the `groupby`, so it survives
in the officer-side sets and the projection's later company lookup fails on
it. -/
theorem C9_null_records_included (rs : List OfficerRow) (r : OfficerRow) (h : r ∈ rs) :
    r.corpId ∈ companies_by_officer_py rs (officerUniqueOf r)
  ∧ (∀ c, r.corpId = some c → officerUniqueOf r ∈ officers_by_company_py rs c) := by
  constructor
  · exact List.mem_toFinset.mpr
      (List.mem_map.mpr ⟨r, List.mem_filter.mpr ⟨h, by simp⟩, rfl⟩)
  · intro c hc
    exact List.mem_toFinset.mpr
      (List.mem_map.mpr ⟨r, List.mem_filter.mpr ⟨h, by simp [hc]⟩, rfl⟩)

/-- Witness for C9 at a one-record table with an all-null identity. -/
theorem C9_null_records_included_witness :
    (⟨none, none, none, none, none, some "C1", none, none, none, none, none, none⟩ :
        OfficerRow) ∈
      [(⟨none, none, none, none, none, some "C1", none, none, none, none, none, none⟩ :
        OfficerRow)] ∧
      (⟨none, none, none, none, none, some "C1", none, none, none, none, none, none⟩ :
          OfficerRow).corpId ∈
        companies_by_officer_py
          [⟨none, none, none, none, none, some "C1", none, none, none, none, none, none⟩]
          (officerUniqueOf
            ⟨none, none, none, none, none, some "C1", none, none, none, none, none, none⟩) :=
  ⟨List.mem_singleton_self _,
    (C9_null_records_included _ _ (List.mem_singleton_self _)).1⟩

/-- C10: name resolution inside the summarizers is total: the `None` padding
entries resolve to `""` (a `None` entry can never equal a stored key), and
any key absent from the lookup dict takes the `''` default of `dict.get`
instead of raising. -/
theorem C10_name_resolution_total {κ : Type} [DecidableEq κ]
    (tbl : List (κ × String)) (tblC : List (κ × Option String)) (k : κ) :
    resolveOfficerName tbl none = ""
  ∧ (pyFind tbl k = none → resolveOfficerName tbl (some k) = "")
  ∧ resolveCompanyName tblC none = some ""
  ∧ (pyFind tblC k = none → resolveCompanyName tblC (some k) = some "") := by
  refine ⟨rfl, ?_, rfl, ?_⟩
  · intro h
    show pyGetD tbl k "" = ""
    rw [pyGetD, h]
    rfl
  · intro h
    show pyGetD tblC k (some "") = some ""
    rw [pyGetD, h]
    rfl

/-- Witness for C10 at an empty table and a missing key. -/
theorem C10_name_resolution_total_witness :
    pyFind ([] : List (ℕ × String)) 2 = none ∧
      resolveOfficerName ([] : List (ℕ × String)) (some 2) = "" :=
  ⟨rfl,
    (C10_name_resolution_total ([] : List (ℕ × String))
      ([] : List (ℕ × Option String)) 2).2.1 rfl⟩

end Claims

end Myanmar
